import Mathlib

/-!
Verification of the workflow-builder toolset: the exact-match text editor,
the line-oriented document store, the pattern search engine, the workflow
schema validator, the repository orchestration over a file-system model,
and the TypeScript workflow builder / executor from
`packages/terminator-workflow/src/index.ts`.
-/

deriving instance DecidableEq for Except

namespace Terminator

/-! ## Splitting scanner

Modelled from the spec: the editor counts occurrences of `old_text` as a
contiguous substring across the full joined document content, scanning
left to right and taking non-overlapping occurrences leftmost-first.
`splitSepAux` performs that scan, returning the text before the first
occurrence together with the list of pieces between/after subsequent
occurrences.  The `fuel` argument makes the recursion structural; it is
irrelevant as soon as it dominates the length of the input
(`splitSepAux_fuel_irrel`). -/
def splitSepAux (sep : List Char) : Nat → List Char → List Char × List (List Char)
  | _, [] => ([], [])
  | 0, s => (s, [])
  | fuel + 1, c :: rest =>
    if sep ≠ [] ∧ sep.isPrefixOf (c :: rest) then
      let p := splitSepAux sep fuel ((c :: rest).drop sep.length)
      ([], p.1 :: p.2)
    else
      let p := splitSepAux sep fuel rest
      (c :: p.1, p.2)

/-- Split a character list at every non-overlapping leftmost occurrence of
`sep`; the result always has one more piece than there are occurrences. -/
def splitSep (sep s : List Char) : List (List Char) :=
  (splitSepAux sep s.length s).1 :: (splitSepAux sep s.length s).2

/-- Join pieces with the separator `sep` in between (inverse of `splitSep`). -/
def joinSep (sep : List Char) : List (List Char) → List Char
  | [] => []
  | l :: ls => l ++ ls.flatMap (fun x => sep ++ x)

/-- Modelled from the spec: number of non-overlapping leftmost-first
occurrences of `old` in `s` (the editor's occurrence count). -/
def countOccurrences (old s : List Char) : Nat :=
  (splitSepAux old s.length s).2.length

/-! ## ExactMatchEditor

Modelled from the spec: `apply(document, EditRequest)` counts occurrences
of `old_text` across the full joined document content; count 0 fails with
`NoMatch`, count 1 replaces regardless of the `replace_all` flag, count
greater than 1 fails with `AmbiguousMatch` (reporting the count) unless
`replace_all` is set, in which case every non-overlapping occurrence is
replaced leftmost-first and the number of replacements is reported. -/

/-- An edit request: old text, new text, and the replace-all flag
(`old_string`, `new_string`, `replace_all` in the tool surface). -/
structure EditRequest where
  old_string : List Char
  new_string : List Char
  replace_all : Bool
deriving DecidableEq

/-- Failures of the exact-match editor. -/
inductive EditError where
  | NoMatch : EditError
  | AmbiguousMatch (count : Nat) : EditError
deriving DecidableEq

/-- Replace every non-overlapping occurrence of `old`, leftmost-first. -/
def replaceAll (old new s : List Char) : List Char :=
  joinSep new (splitSep old s)

/-- Replace only the leftmost occurrence of `old`; leaves the text
unchanged when there is no occurrence. -/
def replaceFirst (old new s : List Char) : List Char :=
  match (splitSepAux old s.length s).2 with
  | [] => s
  | b :: bs => (splitSepAux old s.length s).1 ++ new ++ joinSep old (b :: bs)

/-- Modelled from the spec: the exact-match editor's apply operation. -/
def applyEdit (doc : List Char) (req : EditRequest) : Except EditError (List Char × Nat) :=
  let n := countOccurrences req.old_string doc
  if n = 0 then .error .NoMatch
  else if n = 1 then .ok (replaceFirst req.old_string req.new_string doc, 1)
  else if req.replace_all then .ok (replaceAll req.old_string req.new_string doc, n)
  else .error (.AmbiguousMatch n)

/-! ## WorkflowSchemaValidator

Modelled from the spec: a parsed document is a mapping/sequence/scalar
tree.  The validator requires `tool_name: execute_sequence` at the root,
an `arguments` mapping, an `arguments.steps` sequence, and each step to be
a mapping containing a tool identifier and an arguments object, with
nested `arguments.steps` sequences validated recursively.  Violations are
collected (no short-circuiting) and each names the structural path of the
failure; only a parse failure yields a single parse-error violation. -/

/-- A parsed structured-data document: a mapping/sequence/scalar tree. -/
inductive Yaml where
  | scalar (s : String)
  | seq (items : List Yaml)
  | map (entries : List (String × Yaml))

/-- Look a key up in a mapping's entry list. -/
def lookupKey : List (String × Yaml) → String → Option Yaml
  | [], _ => none
  | (k, v) :: rest, key => if k = key then some v else lookupKey rest key

mutual

/-- Structural size of a tree, used to pick an adequate recursion budget
for the per-step validator. -/
def ysize : Yaml → Nat
  | .scalar _ => 1
  | .seq items => 1 + ylistSize items
  | .map es => 1 + ymapSize es

/-- Structural size of a sequence of trees. -/
def ylistSize : List Yaml → Nat
  | [] => 0
  | y :: rest => ysize y + ylistSize rest

/-- Structural size of a mapping's entries. -/
def ymapSize : List (String × Yaml) → Nat
  | [] => 0
  | (_, v) :: rest => ysize v + ymapSize rest

end

/-- Fold a per-step checker over a step sequence, numbering the steps from
index `i` so violations read like `arguments.steps[2].tool_name`. -/
def checkStepsOf (check : String → Yaml → List String) (path : String) :
    Nat → List Yaml → List String
  | _, [] => []
  | i, s :: rest =>
    check (path ++ "[" ++ toString i ++ "]") s ++ checkStepsOf check path (i + 1) rest

/-- Per-step shape check: a step must be a mapping containing a
`tool_name` and an `arguments` mapping; a nested `arguments.steps`
sequence is validated recursively.  The `fuel` argument bounds the
recursion depth; any fuel of at least the structural size of the step is
adequate (`checkStepF_fuel_eq`). -/
def checkStepF : Nat → String → Yaml → List String
  | 0, path, _ => [path]
  | fuel + 1, path, y =>
    match y with
    | .map es =>
      (if (lookupKey es "tool_name").isSome then [] else [path ++ ".tool_name"]) ++
      (match lookupKey es "arguments" with
       | some (.map aes) =>
         (match lookupKey aes "steps" with
          | some (.seq ss) => checkStepsOf (checkStepF fuel) (path ++ ".arguments.steps") 0 ss
          | some _ => [path ++ ".arguments.steps"]
          | none => [])
       | _ => [path ++ ".arguments"])
    | _ => [path]

/-- Violation text returned when the document does not parse at all. -/
def parseErrorViolation : String := "document failed to parse"

/-- Collect all schema violations of a parsed document. -/
def collectViolations : Yaml → List String
  | .map es =>
    (match lookupKey es "tool_name" with
     | some (.scalar "execute_sequence") => []
     | _ => ["tool_name"]) ++
    (match lookupKey es "arguments" with
     | some (.map aes) =>
       (match lookupKey aes "steps" with
        | some (.seq ss) => checkStepsOf (checkStepF (ylistSize ss)) "arguments.steps" 0 ss
        | _ => ["arguments.steps"])
     | _ => ["arguments"])
  | _ => ["document root"]

/-- Pass/fail plus the ordered list of violations. -/
structure ValidationResult where
  ok : Bool
  violations : List String
deriving DecidableEq

/-- Modelled from the spec: the workflow schema validator, applied to the
outcome of the (external) parser; `none` models a parse failure. -/
def validateParsed : Option Yaml → ValidationResult
  | none => ⟨false, [parseErrorViolation]⟩
  | some y => ⟨(collectViolations y).isEmpty, collectViolations y⟩

/-- The specification's step-shape predicate, written as a direct
conjunction of the spec's checks, to be compared with the
violation-collecting checker. -/
def stepWellShapedF : Nat → Yaml → Bool
  | 0, _ => false
  | fuel + 1, y =>
    match y with
    | .map es =>
      (lookupKey es "tool_name").isSome &&
      (match lookupKey es "arguments" with
       | some (.map aes) =>
         (match lookupKey aes "steps" with
          | some (.seq ss) => ss.all (stepWellShapedF fuel)
          | some _ => false
          | none => true)
       | _ => false)
    | _ => false

/-- The specification's whole-document predicate: all checks of the
schema section, conjoined. -/
def specDocOk : Option Yaml → Bool
  | none => false
  | some (.map es) =>
    (match lookupKey es "tool_name" with
     | some (.scalar "execute_sequence") => true
     | _ => false) &&
    (match lookupKey es "arguments" with
     | some (.map aes) =>
       (match lookupKey aes "steps" with
        | some (.seq ss) => ss.all (stepWellShapedF (ylistSize ss))
        | _ => false)
     | _ => false)
  | some _ => false

/-! ## TextDocumentStore

Modelled from the spec: `load` splits a file's content into a sequence of
lines and records the original line-ending convention; `write` re-joins
the stored lines with that convention.  Re-joining reproduces
byte-identical content when the document was not modified. -/

/-- A loaded document: path, newline-stripped lines, and the original
line-ending convention. -/
structure Document where
  path : String
  lines : List (List Char)
  ending : List Char
deriving DecidableEq

/-- Detect the line-ending convention of a file's content: CRLF when a
CRLF pair occurs anywhere, LF otherwise. -/
def detectEnding (content : List Char) : List Char :=
  if countOccurrences ['\r', '\n'] content = 0 then ['\n'] else ['\r', '\n']

/-- Load a file's content into a `Document`. -/
def loadDocument (path : String) (content : List Char) : Document :=
  ⟨path, splitSep (detectEnding content) content, detectEnding content⟩

/-- Persist the in-memory line sequence back using the stored
line-ending convention. -/
def writeDocument (d : Document) : List Char :=
  joinSep d.ending d.lines

/-! ## WorkflowRepository over a file-system model

Modelled from the spec: the repository loads a document, applies the
exact-match editor, validates the result when the target is recognized as
a workflow file, and writes back only on success; `create` refuses an
occupied path and validates content before writing.  The file system is
an association list from paths to contents; each operation returns the
resulting file system together with a structured result, so that the
no-mutation guarantees are statements about the returned state. -/

/-- A file system: paths mapped to file contents. -/
abbrev Fs : Type := List (String × List Char)

/-- Read a file's content, if the path exists. -/
def Fs.read (fs : Fs) (p : String) : Option (List Char) :=
  match fs with
  | [] => none
  | (q, c) :: rest => if q = p then some c else Fs.read rest p

/-- Write a file, overwriting an existing entry or appending a new one. -/
def Fs.write (fs : Fs) (p : String) (c : List Char) : Fs :=
  match fs with
  | [] => [(p, c)]
  | (q, d) :: rest => if q = p then (p, c) :: rest else (q, d) :: Fs.write rest p c

/-- Structured errors surfaced by the repository. -/
inductive RepoError where
  | NotFound : RepoError
  | AlreadyExists : RepoError
  | NoMatch : RepoError
  | AmbiguousMatch (count : Nat) : RepoError
  | ValidationFailed (violations : List String) : RepoError
deriving DecidableEq

/-- A path is recognized as a workflow file by its extension. -/
def isWorkflowFile (p : String) : Bool :=
  ".yml".data.isSuffixOf p.data || ".yaml".data.isSuffixOf p.data

/-- Modelled from the spec: `edit_workflow` — load, apply the
exact-match editor, validate the result if and only if the target is a
workflow file, and write back only on successful validation.  The parser
is an external collaborator passed as a function. -/
def editWorkflow (parse : List Char → Option Yaml) (fs : Fs) (path : String)
    (req : EditRequest) : Fs × Except RepoError Nat :=
  match Fs.read fs path with
  | none => (fs, .error .NotFound)
  | some doc =>
    match applyEdit doc req with
    | .error .NoMatch => (fs, .error .NoMatch)
    | .error (.AmbiguousMatch n) => (fs, .error (.AmbiguousMatch n))
    | .ok (res, n) =>
      if isWorkflowFile path then
        let v := validateParsed (parse res)
        if v.ok then (Fs.write fs path res, .ok n)
        else (fs, .error (.ValidationFailed v.violations))
      else (Fs.write fs path res, .ok n)

/-- Modelled from the spec: `create_workflow` — fail on an occupied path,
otherwise parse and validate the content before writing; on validation
failure nothing is written. -/
def createWorkflow (parse : List Char → Option Yaml) (fs : Fs) (path : String)
    (content : List Char) : Fs × Except RepoError Unit :=
  if (Fs.read fs path).isSome then (fs, .error .AlreadyExists)
  else
    let v := validateParsed (parse content)
    if v.ok then (Fs.write fs path content, .ok ()) else (fs, .error (.ValidationFailed v.violations))

/-! ## PatternSearchEngine

Modelled from the spec: literal-mode search enumerates candidate files
(default filter: the workflow extensions), in deterministic lexicographic
path order, scans each file line by line, and reports line-addressed
matches — line order within a file, leftmost-match order within a line.
Line numbers are 1-based for external reporting. -/

/-- One reported occurrence: path, 1-based line number, start and end
offsets within the line, and the matched line's text. -/
structure Match where
  path : String
  line : Nat
  startCol : Nat
  endCol : Nat
  text : List Char
deriving DecidableEq

/-- Start offsets of successive occurrences, given the pattern length,
the offset of the first occurrence, and the pieces between occurrences. -/
def occStartsAux (patLen : Nat) : Nat → List (List Char) → List Nat
  | _, [] => []
  | pos, p :: ps => pos :: occStartsAux patLen (pos + patLen + p.length) ps

/-- Start offsets of the non-overlapping leftmost-first occurrences of
`pat` within one line. -/
def occStarts (pat line : List Char) : List Nat :=
  occStartsAux pat.length (splitSepAux pat line.length line).1.length
    (splitSepAux pat line.length line).2

/-- Scan lines numbered from `n`, reporting matches in line order and
leftmost-match order within a line. -/
def searchLinesFrom (pat : List Char) (path : String) : Nat → List (List Char) → List Match
  | _, [] => []
  | n, l :: ls =>
    (occStarts pat l).map (fun s => ⟨path, n, s, s + pat.length, l⟩) ++
      searchLinesFrom pat path (n + 1) ls

/-- Search one file: load it as lines and scan from line 1. -/
def searchFile (pat : List Char) (path : String) (content : List Char) : List Match :=
  searchLinesFrom pat path 1 (loadDocument path content).lines

/-- Lexicographic comparison (non-strict) of character lists, used for
the deterministic traversal order. -/
def listCharLe : List Char → List Char → Bool
  | [], _ => true
  | _ :: _, [] => false
  | a :: as, b :: bs => if a < b then true else if b < a then false else listCharLe as bs

/-- Lexicographic comparison (strict) of character lists. -/
def listCharLt : List Char → List Char → Bool
  | [], [] => false
  | [], _ :: _ => true
  | _ :: _, [] => false
  | a :: as, b :: bs => if a < b then true else if b < a then false else listCharLt as bs

/-- Modelled from the spec: `search_workflows` in literal mode — filter
candidate files by the workflow extension, order them lexicographically
by path, and concatenate the per-file matches. -/
def searchWorkflows (fs : Fs) (pat : List Char) : List Match :=
  (List.insertionSort (fun a b => listCharLe a.1.data b.1.data = true)
      (fs.filter (fun f => isWorkflowFile f.1))).flatMap
    (fun f => searchFile pat f.1 f.2)

/-- The deterministic result order: lexicographic by path, then ascending
line number, then leftmost match within the line. -/
def matchLt (a b : Match) : Prop :=
  listCharLt a.path.data b.path.data = true ∨
    (a.path = b.path ∧ (a.line < b.line ∨ (a.line = b.line ∧ a.startCol < b.startCol)))

/-! ## terminator-workflow TypeScript SDK

Embedded from `packages/terminator-workflow/src/index.ts`.  Values of the
TypeScript `any` type are modelled by a type parameter `α`; the opaque
`Desktop` handle by a type parameter `δ`.  A step's `execute` function
receives the desktop and the shared mutable context and may update the
context; this is modelled as a context transformer.  The `console.log`
calls surrounding each step in `executeWorkflow` are modelled as an
emitted trace of log entries. -/

/-- The `type` field of a `VariableDefinition`. -/
inductive VarType where
  | string : VarType
  | number : VarType
  | boolean : VarType
deriving DecidableEq

/-- Variable definition for workflow inputs (`VariableDefinition`).  The
source's `default` field is named `defaultValue` here because `default`
is a Lean keyword. -/
structure VariableDefinition (α : Type) where
  type : VarType
  label : String
  description : Option String := none
  defaultValue : Option α := none

/-- Workflow metadata parsed by mediar-app (`WorkflowMetadata`).  The
`variables` record is an association list, `none` when the field is
absent. -/
structure WorkflowMetadata (α : Type) where
  id : String
  name : String
  description : Option String := none
  version : Option String := none
  «variables» : Option (List (String × VariableDefinition α)) := none
  tags : Option (List String) := none

/-- Context passed to each step: variables plus shared state
(`WorkflowContext`). -/
structure WorkflowContext (α : Type) where
  «variables» : List (String × α)
  state : List (String × α)

/-- A step in the workflow (`WorkflowStep`). -/
structure WorkflowStep (δ α : Type) where
  id : String
  name : String
  description : Option String := none
  execute : δ → WorkflowContext α → WorkflowContext α

/-- Complete workflow definition (`Workflow`). -/
structure Workflow (δ α : Type) where
  metadata : WorkflowMetadata α
  steps : List (WorkflowStep δ α)

/-- Builder state: the accumulated metadata and steps. -/
structure WorkflowBuilder (δ α : Type) where
  metadata : WorkflowMetadata α
  steps : List (WorkflowStep δ α)

/-- The `WorkflowBuilder` constructor: `this.metadata = { id, name }`,
`this.steps = []`. -/
def WorkflowBuilder.new (δ α : Type) (id name : String) : WorkflowBuilder δ α :=
  ⟨⟨id, name, none, none, none, none⟩, []⟩

/-- Helper `defineWorkflow(id, name)` returning a fresh builder. -/
def defineWorkflow (δ α : Type) (id name : String) : WorkflowBuilder δ α :=
  WorkflowBuilder.new δ α id name

/-- Fluent setter `description(desc)`. -/
def WorkflowBuilder.description {δ α : Type} (b : WorkflowBuilder δ α) (desc : String) :
    WorkflowBuilder δ α :=
  { b with metadata := { b.metadata with description := some desc } }

/-- Fluent setter `version(ver)`. -/
def WorkflowBuilder.version {δ α : Type} (b : WorkflowBuilder δ α) (ver : String) :
    WorkflowBuilder δ α :=
  { b with metadata := { b.metadata with version := some ver } }

/-- JavaScript object key assignment `obj[k] = v` on an association list:
overwrite the entry with the same key in place, or append a new entry. -/
def setKey {α : Type} : List (String × VariableDefinition α) → String →
    VariableDefinition α → List (String × VariableDefinition α)
  | [], k, v => [(k, v)]
  | (q, d) :: rest, k, v => if q = k then (k, v) :: rest else (q, d) :: setKey rest k v

/-- JavaScript object key access `obj[k]` on an association list. -/
def getKey {α : Type} : List (String × VariableDefinition α) → String →
    Option (VariableDefinition α)
  | [], _ => none
  | (q, d) :: rest, k => if q = k then some d else getKey rest k

/-- Fluent setter `variable(name, definition)`: initializes the
`variables` record when absent, then assigns the key. -/
def WorkflowBuilder.«variable» {δ α : Type} (b : WorkflowBuilder δ α) (name : String)
    (definition : VariableDefinition α) : WorkflowBuilder δ α :=
  { b with metadata :=
      { b.metadata with
        «variables» := some (setKey (b.metadata.«variables».getD []) name definition) } }

/-- Fluent setter `tags(...tags)`: assigns the whole list. -/
def WorkflowBuilder.tags {δ α : Type} (b : WorkflowBuilder δ α) (ts : List String) :
    WorkflowBuilder δ α :=
  { b with metadata := { b.metadata with tags := some ts } }

/-- Fluent `step(id, name, execute, description?)`: pushes a step. -/
def WorkflowBuilder.step {δ α : Type} (b : WorkflowBuilder δ α) (id name : String)
    (execute : δ → WorkflowContext α → WorkflowContext α)
    (description : Option String := none) : WorkflowBuilder δ α :=
  { b with steps := b.steps ++ [⟨id, name, description, execute⟩] }

/-- Build the final workflow object (`build()`). -/
def WorkflowBuilder.build {δ α : Type} (b : WorkflowBuilder δ α) : Workflow δ α :=
  ⟨b.metadata, b.steps⟩

/-- Console output of `executeWorkflow`: one entry before and one after
each step. -/
inductive LogEntry where
  | executing (name : String) : LogEntry
  | completed (name : String) : LogEntry
deriving DecidableEq

/-- The body of `executeWorkflow`'s `for (const step of workflow.steps)`
loop: run each step in order on the shared context, logging around it. -/
def executeSteps {δ α : Type} (desktop : δ) :
    List (WorkflowStep δ α) → WorkflowContext α → WorkflowContext α × List LogEntry
  | [], ctx => (ctx, [])
  | s :: rest, ctx =>
    let ctx1 := s.execute desktop ctx
    let p := executeSteps desktop rest ctx1
    (p.1, .executing s.name :: .completed s.name :: p.2)

/-- Execute a workflow with the given variables (`executeWorkflow`): the
context starts as the variables plus an empty state record. -/
def executeWorkflow {δ α : Type} (w : Workflow δ α) (desktop : δ)
    (vars : List (String × α)) : WorkflowContext α × List LogEntry :=
  executeSteps desktop w.steps ⟨vars, []⟩

/-- Concrete search scenario: three workflow files, given out of path
order, one of which contains the pattern `navigate_browser` twice. -/
def scenarioFs : Fs :=
  [("c.yml", "tool_name: execute_sequence\n".data),
   ("a.yml", "arguments:\n  steps: []\n".data),
   ("b.yml",
    "steps:\n  - tool_name: navigate_browser\n  - other\n  - tool_name: navigate_browser\n".data)]

theorem splitSepAux_fuel_eq (sep : List Char) :
    ∀ fuel fuel₂ s, s.length ≤ fuel → s.length ≤ fuel₂ →
      splitSepAux sep fuel s = splitSepAux sep fuel₂ s := by
  intro fuel
  induction fuel with
  | zero =>
    intro fuel₂ s hs _
    have : s = [] := List.length_eq_zero.mp (Nat.le_zero.mp hs)
    subst this
    cases fuel₂ <;> rfl
  | succ fuel ih =>
    intro fuel₂ s hs hs₂
    cases s with
    | nil => cases fuel₂ <;> rfl
    | cons c rest =>
      simp only [List.length_cons] at hs hs₂
      cases fuel₂ with
      | zero => omega
      | succ fuel₂ =>
        have hrest : rest.length ≤ fuel := Nat.le_of_succ_le_succ hs
        have hrest₂ : rest.length ≤ fuel₂ := Nat.le_of_succ_le_succ hs₂
        rw [splitSepAux, splitSepAux]
        by_cases h : sep ≠ [] ∧ sep.isPrefixOf (c :: rest)
        · simp only [if_pos h]
          have hseplen : 0 < sep.length := List.length_pos.mpr h.1
          have hdlen : ((c :: rest).drop sep.length).length ≤ rest.length := by
            simp only [List.length_drop, List.length_cons]
            omega
          rw [ih fuel₂ _ (le_trans hdlen hrest) (le_trans hdlen hrest₂)]
        · simp only [if_neg h]
          rw [ih fuel₂ rest hrest hrest₂]

theorem splitSepAux_fuel_irrel (sep : List Char) (fuel : Nat) (s : List Char)
    (hs : s.length ≤ fuel) : splitSepAux sep fuel s = splitSepAux sep s.length s :=
  splitSepAux_fuel_eq sep fuel s.length s hs (Nat.le_refl _)

theorem joinSep_cons (sep : List Char) (a : List Char) (b : List Char)
    (ls : List (List Char)) :
    joinSep sep (a :: b :: ls) = a ++ sep ++ joinSep sep (b :: ls) := by
  simp [joinSep, List.flatMap_cons, List.append_assoc]

theorem joinSep_splitSepAux (sep : List Char) :
    ∀ fuel s, s.length ≤ fuel →
      joinSep sep ((splitSepAux sep fuel s).1 :: (splitSepAux sep fuel s).2) = s := by
  intro fuel
  induction fuel with
  | zero =>
    intro s hs
    have : s = [] := List.length_eq_zero.mp (Nat.le_zero.mp hs)
    subst this
    simp [splitSepAux, joinSep]
  | succ fuel ih =>
    intro s hs
    cases s with
    | nil => simp [splitSepAux, joinSep]
    | cons c rest =>
      simp only [List.length_cons] at hs
      have hrest : rest.length ≤ fuel := Nat.le_of_succ_le_succ hs
      rw [splitSepAux]
      by_cases h : sep ≠ [] ∧ sep.isPrefixOf (c :: rest)
      · simp only [if_pos h]
        have hseplen : 0 < sep.length := List.length_pos.mpr h.1
        have hdlen : ((c :: rest).drop sep.length).length ≤ fuel := by
          simp only [List.length_drop, List.length_cons]
          omega
        have hpre : sep <+: (c :: rest) := List.isPrefixOf_iff_prefix.mp h.2
        have hjoin := ih _ hdlen
        calc joinSep sep ([] :: (splitSepAux sep fuel ((c :: rest).drop sep.length)).1 ::
                (splitSepAux sep fuel ((c :: rest).drop sep.length)).2)
            = sep ++ joinSep sep ((splitSepAux sep fuel ((c :: rest).drop sep.length)).1 ::
                (splitSepAux sep fuel ((c :: rest).drop sep.length)).2) := by
              rw [joinSep_cons]; simp
          _ = sep ++ (c :: rest).drop sep.length := by rw [hjoin]
          _ = c :: rest := by
              have := List.prefix_iff_eq_append.mp hpre
              simpa using this
      · simp only [if_neg h]
        have hjoin := ih _ hrest
        simp only [joinSep] at hjoin ⊢
        simp [hjoin]

theorem joinSep_splitSep (sep s : List Char) : joinSep sep (splitSep sep s) = s :=
  joinSep_splitSepAux sep s.length s (Nat.le_refl _)

theorem splitSepAux_fst_prefix (sep : List Char) (fuel : Nat) (s : List Char)
    (hs : s.length ≤ fuel) : (splitSepAux sep fuel s).1 <+: s := by
  have h := joinSep_splitSepAux sep fuel s hs
  cases hp : (splitSepAux sep fuel s).2 with
  | nil =>
    rw [hp] at h
    simp only [joinSep, List.flatMap_nil, List.append_nil] at h
    rw [h]
  | cons b bs =>
    rw [hp, joinSep_cons] at h
    exact ⟨sep ++ joinSep sep (b :: bs), by simpa [List.append_assoc] using h⟩

/-- No piece produced by the scanner contains a further occurrence of the
separator: the scan finds every non-overlapping occurrence. -/
theorem not_infix_splitSepAux (sep : List Char) (hsep : sep ≠ []) :
    ∀ fuel s, s.length ≤ fuel →
      ∀ p ∈ (splitSepAux sep fuel s).1 :: (splitSepAux sep fuel s).2, ¬ sep <:+: p := by
  intro fuel
  induction fuel with
  | zero =>
    intro s hs p hp
    have : s = [] := List.length_eq_zero.mp (Nat.le_zero.mp hs)
    subst this
    simp only [splitSepAux, List.mem_cons, List.not_mem_nil, or_false] at hp
    subst hp
    intro hinf
    exact hsep (List.eq_nil_of_infix_nil hinf)
  | succ fuel ih =>
    intro s hs p hp
    cases s with
    | nil =>
      simp only [splitSepAux, List.mem_cons, List.not_mem_nil, or_false] at hp
      subst hp
      intro hinf
      exact hsep (List.eq_nil_of_infix_nil hinf)
    | cons c rest =>
      simp only [List.length_cons] at hs
      have hrest : rest.length ≤ fuel := Nat.le_of_succ_le_succ hs
      rw [splitSepAux] at hp
      by_cases h : sep ≠ [] ∧ sep.isPrefixOf (c :: rest)
      · simp only [if_pos h, List.mem_cons] at hp
        have hseplen : 0 < sep.length := List.length_pos.mpr h.1
        have hdlen : ((c :: rest).drop sep.length).length ≤ fuel := by
          simp only [List.length_drop, List.length_cons]
          omega
        rcases hp with hp | hp
        · subst hp
          intro hinf
          exact hsep (List.eq_nil_of_infix_nil hinf)
        · exact ih _ hdlen p (List.mem_cons.mpr hp)
      · simp only [if_neg h, List.mem_cons] at hp
        have hnpre : ¬ sep <+: (c :: rest) := by
          intro hpre
          exact h ⟨hsep, List.isPrefixOf_iff_prefix.mpr hpre⟩
        rcases hp with hp | hp
        · subst hp
          rintro ⟨u, t, hut⟩
          cases u with
          | nil =>
            have hpre1 : sep <+: c :: (splitSepAux sep fuel rest).1 := by
              exact ⟨t, by simpa using hut⟩
            have hpre2 : c :: (splitSepAux sep fuel rest).1 <+: c :: rest :=
              List.cons_prefix_cons.mpr ⟨rfl, splitSepAux_fst_prefix sep fuel rest hrest⟩
            exact hnpre (hpre1.trans hpre2)
          | cons u₀ u' =>
            have htail : u' ++ sep ++ t = (splitSepAux sep fuel rest).1 := by
              have := hut
              simp only [List.cons_append] at this
              exact (List.cons_eq_cons.mp this).2
            exact ih _ hrest _ (List.mem_cons_self _ _) ⟨u', t, htail⟩
        · exact ih _ hrest p (List.mem_cons.mpr (Or.inr hp))

/-- For a non-empty pattern, the scanner finds no occurrence exactly when the
pattern is not an infix of the text. -/
theorem countOccurrences_eq_zero_iff (old s : List Char) (hold : old ≠ []) :
    countOccurrences old s = 0 ↔ ¬ List.IsInfix old s := by
  unfold countOccurrences
  constructor
  · intro h0
    have h2 : (splitSepAux old s.length s).2 = [] := List.length_eq_zero.mp h0
    have hj := joinSep_splitSepAux old s.length s (Nat.le_refl _)
    rw [h2] at hj
    simp only [joinSep, List.flatMap_nil, List.append_nil] at hj
    have := not_infix_splitSepAux old hold s.length s (Nat.le_refl _)
      (splitSepAux old s.length s).1 (List.mem_cons_self _ _)
    rwa [hj] at this
  · intro hni
    by_contra h0
    cases hp : (splitSepAux old s.length s).2 with
    | nil => exact h0 (by rw [hp]; rfl)
    | cons b bs =>
      have hj := joinSep_splitSepAux old s.length s (Nat.le_refl _)
      rw [hp, joinSep_cons] at hj
      exact hni ⟨(splitSepAux old s.length s).1, joinSep old (b :: bs), by
        simpa [List.append_assoc] using hj⟩

theorem checkStepsOf_congr (f g : String → Yaml → List String)
    (h : ∀ p y, f p y = g p y) (path : String) :
    ∀ i ss, checkStepsOf f path i ss = checkStepsOf g path i ss := by
  intro i ss
  induction ss generalizing i with
  | nil => rfl
  | cons s rest ih => simp [checkStepsOf, h, ih]

theorem checkStepsOf_empty_iff (f : String → Yaml → List String) (g : Yaml → Bool)
    (h : ∀ p y, f p y = [] ↔ g y = true) (path : String) :
    ∀ i ss, (checkStepsOf f path i ss = [] ↔ ss.all g = true) := by
  intro i ss
  induction ss generalizing i with
  | nil => simp [checkStepsOf]
  | cons s rest ih =>
    simp only [checkStepsOf, List.append_eq_nil, List.all_cons, Bool.and_eq_true]
    exact and_congr (h _ s) (ih (i + 1))

/-- The violation-collecting step checker agrees with the specification's
step-shape predicate at every recursion budget: no violations are
collected exactly when the step is well shaped. -/
theorem checkStepF_empty_iff :
    ∀ fuel path y, (checkStepF fuel path y = [] ↔ stepWellShapedF fuel y = true) := by
  intro fuel
  induction fuel with
  | zero =>
    intro path y
    simp [checkStepF, stepWellShapedF]
  | succ fuel ih =>
    intro path y
    cases y with
    | scalar s => simp [checkStepF, stepWellShapedF]
    | seq ss => simp [checkStepF, stepWellShapedF]
    | map es =>
      simp only [checkStepF, stepWellShapedF, List.append_eq_nil, Bool.and_eq_true]
      refine and_congr ?_ ?_
      · by_cases hns : (lookupKey es "tool_name").isSome <;> simp [hns]
      · rcases hh : lookupKey es "arguments" with _ | v
        · simp
        · cases v with
          | scalar s => simp
          | seq s => simp
          | map aes =>
            simp only
            rcases hs : lookupKey aes "steps" with _ | w
            · simp
            · cases w with
              | scalar s => simp
              | seq ss => exact checkStepsOf_empty_iff _ _ (fun p y => ih p y) _ 0 ss
              | map m => simp

theorem Fs.read_write (fs : Fs) (p : String) (c : List Char) :
    Fs.read (Fs.write fs p c) p = some c := by
  induction fs with
  | nil => simp [Fs.read, Fs.write]
  | cons e rest ih =>
    obtain ⟨q, d⟩ := e
    by_cases h : q = p
    · simp [Fs.read, Fs.write, h]
    · simp [Fs.read, Fs.write, h, ih]

theorem listCharLe_total : ∀ a b, listCharLe a b = true ∨ listCharLe b a = true := by
  intro a
  induction a with
  | nil => intro b; exact Or.inl rfl
  | cons x as ih =>
    intro b
    cases b with
    | nil => exact Or.inr rfl
    | cons y bs =>
      by_cases hxy : x < y
      · exact Or.inl (by simp [listCharLe, hxy])
      · by_cases hyx : y < x
        · exact Or.inr (by simp [listCharLe, hyx])
        · rcases ih bs with h | h
          · exact Or.inl (by simp [listCharLe, hxy, hyx, h])
          · exact Or.inr (by simp [listCharLe, hxy, hyx, h])

theorem listCharLe_trans :
    ∀ a b c, listCharLe a b = true → listCharLe b c = true → listCharLe a c = true := by
  intro a
  induction a with
  | nil => intro b c _ _; rfl
  | cons x as ih =>
    intro b c hab hbc
    cases b with
    | nil => simp [listCharLe] at hab
    | cons y bs =>
      cases c with
      | nil => simp [listCharLe] at hbc
      | cons z cs =>
        by_cases hxy : x < y
        · by_cases hyz : y < z
          · simp [listCharLe, lt_trans hxy hyz]
          · by_cases hzy : z < y
            · simp [listCharLe, hyz, hzy] at hbc
            · have hyz' : y = z := le_antisymm (not_lt.mp hzy) (not_lt.mp hyz)
              simp [listCharLe, hyz' ▸ hxy]
        · by_cases hyx : y < x
          · simp [listCharLe, hxy, hyx] at hab
          · have hxy' : x = y := le_antisymm (not_lt.mp hyx) (not_lt.mp hxy)
            simp only [listCharLe, if_neg hxy, if_neg hyx] at hab
            by_cases hyz : y < z
            · simp [listCharLe, hxy' ▸ hyz]
            · by_cases hzy : z < y
              · simp [listCharLe, hyz, hzy] at hbc
              · have hyz' : y = z := le_antisymm (not_lt.mp hzy) (not_lt.mp hyz)
                simp only [listCharLe, if_neg hyz, if_neg hzy] at hbc
                have hxz : ¬ x < z := hyz' ▸ hxy' ▸ hxy
                have hzx : ¬ z < x := hyz' ▸ hxy' ▸ hyx
                simp only [listCharLe, if_neg hxz, if_neg hzx]
                exact ih bs cs hab hbc

theorem listCharLt_of_le_of_ne :
    ∀ a b, listCharLe a b = true → a ≠ b → listCharLt a b = true := by
  intro a
  induction a with
  | nil =>
    intro b _ hne
    cases b with
    | nil => exact absurd rfl hne
    | cons y bs => rfl
  | cons x as ih =>
    intro b hle hne
    cases b with
    | nil => simp [listCharLe] at hle
    | cons y bs =>
      by_cases hxy : x < y
      · simp [listCharLt, hxy]
      · by_cases hyx : y < x
        · simp [listCharLe, hxy, hyx] at hle
        · have hxy' : x = y := le_antisymm (not_lt.mp hyx) (not_lt.mp hxy)
          simp only [listCharLe, if_neg hxy, if_neg hyx] at hle
          have hne' : as ≠ bs := by
            intro h
            exact hne (by rw [hxy', h])
          simp only [listCharLt, if_neg hxy, if_neg hyx]
          exact ih bs hle hne'

theorem occStartsAux_le_of_mem (patLen : Nat) :
    ∀ ps pos x, x ∈ occStartsAux patLen pos ps → pos ≤ x := by
  intro ps
  induction ps with
  | nil => intro pos x hx; simp [occStartsAux] at hx
  | cons p rest ih =>
    intro pos x hx
    simp only [occStartsAux, List.mem_cons] at hx
    rcases hx with rfl | hx
    · exact Nat.le_refl _
    · have := ih _ x hx
      omega

theorem occStartsAux_pairwise (patLen : Nat) (hpat : 0 < patLen) :
    ∀ ps pos, (occStartsAux patLen pos ps).Pairwise (· < ·) := by
  intro ps
  induction ps with
  | nil => intro pos; simp [occStartsAux]
  | cons p rest ih =>
    intro pos
    simp only [occStartsAux, List.pairwise_cons]
    refine ⟨fun x hx => ?_, ih _⟩
    have := occStartsAux_le_of_mem patLen rest _ x hx
    omega

theorem searchLinesFrom_mem (pat : List Char) (path : String) :
    ∀ ls n m, m ∈ searchLinesFrom pat path n ls → m.path = path ∧ n ≤ m.line := by
  intro ls
  induction ls with
  | nil => intro n m hm; simp [searchLinesFrom] at hm
  | cons l rest ih =>
    intro n m hm
    simp only [searchLinesFrom, List.mem_append, List.mem_map] at hm
    rcases hm with ⟨s, _, rfl⟩ | hm
    · exact ⟨rfl, Nat.le_refl _⟩
    · have := ih (n + 1) m hm
      exact ⟨this.1, by omega⟩

theorem searchLinesFrom_pairwise (pat : List Char) (hpat : pat ≠ []) (path : String) :
    ∀ ls n, (searchLinesFrom pat path n ls).Pairwise matchLt := by
  intro ls
  induction ls with
  | nil => intro n; simp [searchLinesFrom]
  | cons l rest ih =>
    intro n
    simp only [searchLinesFrom]
    rw [List.pairwise_append]
    refine ⟨?_, ih (n + 1), ?_⟩
    · rw [List.pairwise_map]
      have hp := occStartsAux_pairwise pat.length (List.length_pos.mpr hpat)
        (splitSepAux pat l.length l).2 (splitSepAux pat l.length l).1.length
      exact hp.imp (fun hab => Or.inr ⟨rfl, Or.inr ⟨rfl, hab⟩⟩)
    · intro x hx y hy
      obtain ⟨s, _, rfl⟩ := List.mem_map.mp hx
      have hy' := searchLinesFrom_mem pat path rest (n + 1) y hy
      have hn : n < y.line := by omega
      exact Or.inr ⟨hy'.1.symm, Or.inl (by simpa using hn)⟩

theorem searchFile_mem_path (pat : List Char) (path : String) (content : List Char)
    (m : Match) (hm : m ∈ searchFile pat path content) : m.path = path :=
  (searchLinesFrom_mem pat path _ 1 m hm).1

theorem searchFile_pairwise (pat : List Char) (hpat : pat ≠ []) (path : String)
    (content : List Char) : (searchFile pat path content).Pairwise matchLt :=
  searchLinesFrom_pairwise pat hpat path _ 1

/-- Search results come out in deterministic lexicographic order:
path, then line number, then start column. -/
theorem searchWorkflows_pairwise (fs : Fs) (pat : List Char) (hpat : pat ≠ [])
    (hnd : (fs.map Prod.fst).Nodup) : (searchWorkflows fs pat).Pairwise matchLt := by
  letI : IsTotal (String × List Char) (fun a b => listCharLe a.1.data b.1.data = true) :=
    ⟨fun a b => listCharLe_total a.1.data b.1.data⟩
  letI : IsTrans (String × List Char) (fun a b => listCharLe a.1.data b.1.data = true) :=
    ⟨fun _ _ _ hab hbc => listCharLe_trans _ _ _ hab hbc⟩
  unfold searchWorkflows
  rw [List.pairwise_flatMap]
  refine ⟨fun f _ => searchFile_pairwise pat hpat f.1 f.2, ?_⟩
  have hperm : List.Perm
      (List.insertionSort (fun a b => listCharLe a.1.data b.1.data = true)
        (fs.filter (fun f => isWorkflowFile f.1)))
      (fs.filter (fun f => isWorkflowFile f.1)) :=
    List.perm_insertionSort _ _
  have hndf : ((fs.filter (fun f => isWorkflowFile f.1)).map Prod.fst).Nodup :=
    List.Nodup.sublist (List.Sublist.map Prod.fst (List.filter_sublist _)) hnd
  have hnds : ((List.insertionSort (fun a b => listCharLe a.1.data b.1.data = true)
      (fs.filter (fun f => isWorkflowFile f.1))).map Prod.fst).Nodup :=
    ((hperm.map Prod.fst).nodup_iff).mpr hndf
  have hne : (List.insertionSort (fun a b => listCharLe a.1.data b.1.data = true)
      (fs.filter (fun f => isWorkflowFile f.1))).Pairwise (fun a b => a.1 ≠ b.1) :=
    List.pairwise_map.mp hnds
  have hle : (List.insertionSort (fun a b => listCharLe a.1.data b.1.data = true)
      (fs.filter (fun f => isWorkflowFile f.1))).Pairwise
      (fun a b => listCharLe a.1.data b.1.data = true) :=
    List.sorted_insertionSort _ _
  have hlt := (hle.and hne).imp
    (fun h => listCharLt_of_le_of_ne _ _ h.1
      (fun hd => h.2 (String.toList_inj.mp hd)))
  refine hlt.imp ?_
  intro a b hab x hx y hy
  have hxa := searchFile_mem_path pat a.1 a.2 x hx
  have hyb := searchFile_mem_path pat b.1 b.2 y hy
  exact Or.inl (by rw [hxa, hyb]; exact hab)

theorem executeSteps_trace {δ α : Type} (desktop : δ) :
    ∀ (steps : List (WorkflowStep δ α)) (ctx : WorkflowContext α),
      (executeSteps desktop steps ctx).2 =
        steps.flatMap (fun s => [LogEntry.executing s.name, LogEntry.completed s.name]) ∧
      (executeSteps desktop steps ctx).1 =
        steps.foldl (fun c s => s.execute desktop c) ctx := by
  intro steps
  induction steps with
  | nil => intro ctx; simp [executeSteps]
  | cons s rest ih =>
    intro ctx
    simp only [executeSteps, List.flatMap_cons, List.foldl_cons]
    exact ⟨by simp [(ih (s.execute desktop ctx)).1], (ih (s.execute desktop ctx)).2⟩

theorem foldl_step_steps {δ α : Type} :
    ∀ (specs : List (String × String × (δ → WorkflowContext α → WorkflowContext α)))
      (b : WorkflowBuilder δ α),
      (specs.foldl (fun c s => WorkflowBuilder.step c s.1 s.2.1 s.2.2 none) b).steps =
        b.steps ++ specs.map (fun s => ⟨s.1, s.2.1, none, s.2.2⟩) := by
  intro specs
  induction specs with
  | nil => intro b; simp
  | cons s rest ih =>
    intro b
    simp only [List.foldl_cons, List.map_cons]
    rw [ih]
    simp [WorkflowBuilder.step]

theorem splitSepAux_nil_sep : ∀ (fuel : Nat) (s : List Char), (splitSepAux [] fuel s).2 = [] := by
  intro fuel
  induction fuel with
  | zero => intro s; cases s <;> rfl
  | succ fuel ih =>
    intro s
    cases s with
    | nil => rfl
    | cons c rest => simp [splitSepAux, ih]

theorem countOccurrences_nil_sep (s : List Char) : countOccurrences [] s = 0 := by
  simp [countOccurrences, splitSepAux_nil_sep]

theorem getKey_setKey_self {α : Type} :
    ∀ (l : List (String × VariableDefinition α)) (k : String) (v : VariableDefinition α),
      getKey (setKey l k v) k = some v := by
  intro l
  induction l with
  | nil => intro k v; simp [setKey, getKey]
  | cons e rest ih =>
    intro k v
    obtain ⟨q, d⟩ := e
    by_cases h : q = k
    · simp [setKey, getKey, h]
    · simp [setKey, getKey, h, ih]

theorem getKey_setKey_other {α : Type} :
    ∀ (l : List (String × VariableDefinition α)) (k k₂ : String) (v : VariableDefinition α),
      k₂ ≠ k → getKey (setKey l k v) k₂ = getKey l k₂ := by
  intro l
  induction l with
  | nil =>
    intro k k₂ v hne
    simp only [setKey, getKey]
    rw [if_neg (fun h => hne h.symm)]
  | cons e rest ih =>
    intro k k₂ v hne
    obtain ⟨q, d⟩ := e
    by_cases h : q = k
    · have hk₂ : ¬ k = k₂ := fun hh => hne hh.symm
      have hq₂ : ¬ q = k₂ := by rw [h]; exact hk₂
      simp only [setKey, if_pos h, getKey, if_neg hk₂, if_neg hq₂]
    · by_cases h₂ : q = k₂
      · simp only [setKey, getKey, if_neg h, if_pos h₂]
      · simp only [setKey, getKey, if_neg h, if_neg h₂]
        exact ih k k₂ v hne

/-! ## Claim theorems -/

/-- C5: loading a document and writing it back without applying any edit
reproduces the original file bytes exactly, preserving the line-ending
convention. -/
theorem write_load_roundtrip (path : String) (content : List Char) :
    writeDocument (loadDocument path content) = content :=
  joinSep_splitSep (detectEnding content) content

/-- C4: a schema-validation failure on the edit or create commit path
means nothing is written: the failing edit returns the unchanged file
system and `ValidationFailed` with the full violation list, and the
failing create leaves the target file absent. -/
theorem validation_failure_writes_nothing (parse : List Char → Option Yaml) (fs : Fs)
    (path : String) (req : EditRequest) (doc res content : List Char) (n : Nat)
    (hread : Fs.read fs path = some doc) (happly : applyEdit doc req = .ok (res, n))
    (hwf : isWorkflowFile path = true) (hvres : (validateParsed (parse res)).ok = false) :
    (editWorkflow parse fs path req =
      (fs, .error (.ValidationFailed (validateParsed (parse res)).violations))) ∧
    ((validateParsed (parse content)).ok = false →
      ∀ fs₂ : Fs, Fs.read fs₂ path = none →
        createWorkflow parse fs₂ path content =
          (fs₂, .error (.ValidationFailed (validateParsed (parse content)).violations)) ∧
        Fs.read (createWorkflow parse fs₂ path content).1 path = none) := by
  constructor
  · simp [editWorkflow, hread, happly, hwf, hvres]
  · intro hvc fs₂ hr₂
    simp [createWorkflow, hr₂, hvc]

/-- C1: for a non-empty old text, the exact-match edit fails exactly when
the occurrence count is zero (`NoMatch`) or greater than one without
`replace_all` (`AmbiguousMatch`, reporting the count); a count of zero
means the old text does not occur in the joined content, and on every
editor failure the repository returns the file system unchanged, with the
document still reading back byte-identical. -/
theorem edit_failure_characterization (parse : List Char → Option Yaml) (fs : Fs)
    (path : String) (doc : List Char) (req : EditRequest)
    (hold : req.old_string ≠ []) (hread : Fs.read fs path = some doc) :
    ((∃ e, applyEdit doc req = .error e) ↔
      (countOccurrences req.old_string doc = 0 ∨
        (1 < countOccurrences req.old_string doc ∧ req.replace_all = false))) ∧
    (applyEdit doc req = .error .NoMatch ↔ countOccurrences req.old_string doc = 0) ∧
    (countOccurrences req.old_string doc = 0 ↔ ¬ List.IsInfix req.old_string doc) ∧
    (∀ n, applyEdit doc req = .error (.AmbiguousMatch n) ↔
      (n = countOccurrences req.old_string doc ∧ 1 < n ∧ req.replace_all = false)) ∧
    (∀ e, applyEdit doc req = .error e →
      (editWorkflow parse fs path req).1 = fs ∧
      Fs.read (editWorkflow parse fs path req).1 path = some doc) := by
  have hinf := countOccurrences_eq_zero_iff req.old_string doc hold
  by_cases h0 : countOccurrences req.old_string doc = 0
  · have happly : applyEdit doc req = .error .NoMatch := by simp [applyEdit, h0]
    refine ⟨⟨fun _ => Or.inl h0, fun _ => ⟨.NoMatch, happly⟩⟩, ?_, hinf, ?_, ?_⟩
    · rw [happly]
      exact ⟨fun _ => h0, fun _ => rfl⟩
    · intro n
      rw [happly]
      constructor
      · intro h
        exact absurd h (by simp)
      · rintro ⟨rfl, hlt, _⟩
        omega
    · intro e _
      constructor <;> simp [editWorkflow, hread, happly]
  · by_cases h1 : countOccurrences req.old_string doc = 1
    · have happly : applyEdit doc req =
          .ok (replaceFirst req.old_string req.new_string doc, 1) := by
        simp [applyEdit, h0, h1]
      refine ⟨?_, ?_, hinf, ?_, ?_⟩
      · constructor
        · rintro ⟨e, he⟩
          rw [happly] at he
          exact absurd he (by simp)
        · rintro (hc | ⟨hc, _⟩)
          · exact absurd hc h0
          · omega
      · rw [happly]
        exact ⟨fun h => absurd h (by simp), fun hc => absurd hc h0⟩
      · intro n
        rw [happly]
        exact ⟨fun h => absurd h (by simp), fun h => absurd h.1 (by omega)⟩
      · intro e he
        rw [happly] at he
        exact absurd he (by simp)
    · have hgt : 1 < countOccurrences req.old_string doc := by omega
      by_cases hra : req.replace_all
      · have happly : applyEdit doc req =
            .ok (replaceAll req.old_string req.new_string doc,
              countOccurrences req.old_string doc) := by
          simp [applyEdit, h0, h1, hra]
        refine ⟨?_, ?_, hinf, ?_, ?_⟩
        · constructor
          · rintro ⟨e, he⟩
            rw [happly] at he
            exact absurd he (by simp)
          · rintro (hc | ⟨_, hf⟩)
            · exact absurd hc h0
            · rw [hra] at hf
              exact absurd hf (by simp)
        · rw [happly]
          exact ⟨fun h => absurd h (by simp), fun hc => absurd hc h0⟩
        · intro n
          rw [happly]
          refine ⟨fun h => absurd h (by simp), ?_⟩
          rintro ⟨_, _, hf⟩
          rw [hra] at hf
          exact absurd hf (by simp)
        · intro e he
          rw [happly] at he
          exact absurd he (by simp)
      · have hraf : req.replace_all = false := Bool.not_eq_true _ ▸ eq_false_of_ne_true hra
        have happly : applyEdit doc req =
            .error (.AmbiguousMatch (countOccurrences req.old_string doc)) := by
          simp [applyEdit, h0, h1, hraf]
        refine ⟨⟨fun _ => Or.inr ⟨hgt, hraf⟩, fun _ => ⟨_, happly⟩⟩, ?_, hinf, ?_, ?_⟩
        · rw [happly]
          refine ⟨fun h => absurd h (by simp), fun hc => absurd hc h0⟩
        · intro n
          rw [happly]
          constructor
          · intro h
            have hcn : countOccurrences req.old_string doc = n := by simpa using h
            exact ⟨hcn.symm, hcn ▸ hgt, hraf⟩
          · rintro ⟨hn, _, _⟩
            rw [hn]
        · intro e _
          constructor <;> simp [editWorkflow, hread, happly]

/-- C2: with `replace_all` set, every non-overlapping occurrence is
replaced leftmost-first and exactly `n` replacements are reported: the
document decomposes into `n + 1` pieces containing no occurrence of the
old text, joined by the old text, and the result joins the same pieces
with the new text. -/
theorem edit_replace_all_spec (doc old new : List Char) (n : Nat)
    (hold : old ≠ []) (hcount : countOccurrences old doc = n) (hn : 1 < n) :
    ∃ parts : List (List Char),
      parts.length = n + 1 ∧
      joinSep old parts = doc ∧
      (∀ p ∈ parts, ¬ List.IsInfix old p) ∧
      applyEdit doc ⟨old, new, true⟩ = .ok (joinSep new parts, n) := by
  refine ⟨splitSep old doc, ?_, joinSep_splitSep old doc, ?_, ?_⟩
  · rw [countOccurrences] at hcount
    simp only [splitSep, List.length_cons]
    omega
  · exact fun p hp => not_infix_splitSepAux old hold doc.length doc (Nat.le_refl _) p hp
  · have h0 : ¬ n = 0 := by omega
    have h1 : ¬ n = 1 := by omega
    simp [applyEdit, hcount, h0, h1, replaceAll]

/-- C3: when the old text occurs exactly once, the edit succeeds for
either value of the `replace_all` flag, the result is the document with
that single occurrence replaced, and on the repository's write path the
edited content is what a subsequent read returns. -/
theorem edit_unique_occurrence_spec (parse : List Char → Option Yaml)
    (doc old new : List Char) (hcount : countOccurrences old doc = 1) :
    ∃ a b : List Char,
      doc = a ++ old ++ b ∧
      (¬ List.IsInfix old a) ∧ (¬ List.IsInfix old b) ∧
      (∀ flag : Bool, applyEdit doc ⟨old, new, flag⟩ = .ok (a ++ new ++ b, 1)) ∧
      (∀ (flag : Bool) (fs : Fs) (path : String), Fs.read fs path = some doc →
        (isWorkflowFile path = false ∨ (validateParsed (parse (a ++ new ++ b))).ok = true) →
        editWorkflow parse fs path ⟨old, new, flag⟩ =
          (Fs.write fs path (a ++ new ++ b), .ok 1) ∧
        Fs.read (editWorkflow parse fs path ⟨old, new, flag⟩).1 path =
          some (a ++ new ++ b)) := by
  have hold : old ≠ [] := by
    intro hnil
    rw [hnil, countOccurrences_nil_sep] at hcount
    exact absurd hcount (by simp)
  rw [countOccurrences] at hcount
  obtain ⟨b, hb⟩ := List.length_eq_one.mp hcount
  have hjoin := joinSep_splitSepAux old doc.length doc (Nat.le_refl _)
  rw [hb] at hjoin
  have hdoc : doc = (splitSepAux old doc.length doc).1 ++ old ++ b := by
    refine hjoin.symm.trans ?_
    simp [joinSep, List.append_assoc]
  have hNa := not_infix_splitSepAux old hold doc.length doc (Nat.le_refl _)
    (splitSepAux old doc.length doc).1 (List.mem_cons_self _ _)
  have hNb : ¬ List.IsInfix old b := by
    refine not_infix_splitSepAux old hold doc.length doc (Nat.le_refl _) b ?_
    rw [hb]
    exact List.mem_cons.mpr (Or.inr (List.mem_cons_self _ _))
  have happly : ∀ flag : Bool, applyEdit doc ⟨old, new, flag⟩ =
      .ok ((splitSepAux old doc.length doc).1 ++ new ++ b, 1) := by
    intro flag
    have hc : countOccurrences old doc = 1 := by rw [countOccurrences, hcount]
    simp [applyEdit, hc, replaceFirst, hb, joinSep]
  refine ⟨(splitSepAux old doc.length doc).1, b, hdoc, hNa, hNb, happly, ?_⟩
  intro flag fs path hread hval
  have hgoal : editWorkflow parse fs path ⟨old, new, flag⟩ =
      (Fs.write fs path ((splitSepAux old doc.length doc).1 ++ new ++ b), .ok 1) := by
    rcases hval with hwf | hok
    · simp [editWorkflow, hread, happly flag, hwf]
    · by_cases hwf : isWorkflowFile path
      · have hok₂ : (validateParsed
            (parse ((splitSepAux old doc.length doc).1 ++ (new ++ b)))).ok = true := by
          simpa [List.append_assoc] using hok
        simp [editWorkflow, hread, happly flag, hwf, hok₂]
      · simp [editWorkflow, hread, happly flag, hwf]
  exact ⟨hgoal, by rw [hgoal]; exact Fs.read_write fs path _⟩

/-- C6: the validator accepts a document whose `arguments.steps` is an
empty sequence, and rejects a document whose `arguments` mapping has no
`steps` sequence, reporting the missing path `arguments.steps`. -/
theorem validator_steps_requirements :
    (validateParsed (some (Yaml.map
        [("tool_name", .scalar "execute_sequence"),
         ("arguments", .map [("steps", .seq [])])])) = ⟨true, []⟩) ∧
    (∀ es aes, lookupKey es "arguments" = some (.map aes) →
      lookupKey aes "steps" = none →
      (validateParsed (some (.map es))).ok = false ∧
      "arguments.steps" ∈ (validateParsed (some (.map es))).violations) := by
  constructor
  · rfl
  · intro es aes hargs hsteps
    simp only [validateParsed, collectViolations, hargs, hsteps]
    constructor
    · simp [List.isEmpty_iff]
    · simp

/-- C7: only a parse failure short-circuits, yielding the single
parse-error violation; for every parseable document the validator's
verdict is positive exactly when all of the spec's checks (tool
identifier, arguments mapping, steps sequence, recursive per-step shape)
pass, the verdict is positive exactly when no violation was collected,
and a failing top-level check contributes a violation naming its path. -/
theorem validator_collects_all_checks :
    (validateParsed none = ⟨false, [parseErrorViolation]⟩) ∧
    (∀ y, ((validateParsed (some y)).ok = true ↔ specDocOk (some y) = true)) ∧
    (∀ y, ((validateParsed (some y)).ok = true ↔
      (validateParsed (some y)).violations = [])) ∧
    (∀ es, lookupKey es "tool_name" ≠ some (.scalar "execute_sequence") →
      "tool_name" ∈ (validateParsed (some (.map es))).violations) ∧
    (∀ es, (∀ aes, lookupKey es "arguments" ≠ some (.map aes)) →
      "arguments" ∈ (validateParsed (some (.map es))).violations) := by
  refine ⟨rfl, ?_, ?_, ?_, ?_⟩
  · intro y
    cases y with
    | scalar s => simp [validateParsed, collectViolations, specDocOk]
    | seq ss => simp [validateParsed, collectViolations, specDocOk]
    | map es =>
      simp only [validateParsed, collectViolations, specDocOk, List.isEmpty_iff,
        List.append_eq_nil, Bool.and_eq_true]
      refine and_congr ?_ ?_
      · rcases ht : lookupKey es "tool_name" with _ | v
        · simp
        · cases v with
          | scalar s =>
            by_cases hs : s = "execute_sequence"
            · subst hs
              simp
            · split
              · rename_i heq
                simp at heq
                exact absurd heq hs
              · simp
          | seq s₂ => simp
          | map m => simp
      · rcases hh : lookupKey es "arguments" with _ | v
        · simp
        · cases v with
          | scalar s => simp
          | seq s₂ => simp
          | map aes =>
            simp only
            rcases hs : lookupKey aes "steps" with _ | w
            · simp
            · cases w with
              | scalar s => simp
              | seq ss => exact checkStepsOf_empty_iff _ _ (checkStepF_empty_iff _) _ 0 ss
              | map m => simp
  · intro y
    simp [validateParsed, List.isEmpty_iff]
  · intro es hne
    simp only [validateParsed, collectViolations]
    rw [List.mem_append]
    refine Or.inl ?_
    rcases ht : lookupKey es "tool_name" with _ | v
    · simp
    · cases v with
      | scalar s =>
        by_cases hs : s = "execute_sequence"
        · subst hs
          exact absurd ht hne
        · simp
      | seq s₂ => simp
      | map m => simp
  · intro es hne
    simp only [validateParsed, collectViolations]
    rw [List.mem_append]
    refine Or.inr ?_
    rcases hh : lookupKey es "arguments" with _ | v
    · simp
    · cases v with
      | scalar s => simp
      | seq s₂ => simp
      | map aes => exact absurd hh (hne aes)

/-- C8: search results come out in a deterministic order — lexicographic
by path, ascending line order within a file, leftmost-match order within
a line — and the concrete three-file scenario yields exactly the two
matches of the one file containing the pattern twice, in ascending line
order. -/
theorem search_order_deterministic :
    (∀ (fs : Fs) (pat : List Char), pat ≠ [] → (fs.map Prod.fst).Nodup →
      (searchWorkflows fs pat).Pairwise matchLt) ∧
    searchWorkflows scenarioFs "navigate_browser".data =
      [⟨"b.yml", 2, 15, 31, "  - tool_name: navigate_browser".data⟩,
       ⟨"b.yml", 4, 15, 31, "  - tool_name: navigate_browser".data⟩] :=
  ⟨fun fs pat h1 h2 => searchWorkflows_pairwise fs pat h1 h2, by decide⟩

/-- C9: a workflow assembled with the builder and built via `build`
executes exactly the steps added with `step`, each exactly once, in
insertion order, sequentially threading the one context that starts as
the given variables plus an empty state record. -/
theorem executeWorkflow_in_order {δ α : Type} (desktop : δ) (vars : List (String × α))
    (id name : String)
    (specs : List (String × String × (δ → WorkflowContext α → WorkflowContext α))) :
    ((specs.foldl (fun b s => b.step s.1 s.2.1 s.2.2 none)
        (defineWorkflow δ α id name)).build).steps =
      specs.map (fun s => ⟨s.1, s.2.1, none, s.2.2⟩) ∧
    (∀ w : Workflow δ α,
      (executeWorkflow w desktop vars).2 =
        w.steps.flatMap (fun s => [LogEntry.executing s.name, LogEntry.completed s.name]) ∧
      (executeWorkflow w desktop vars).1 =
        w.steps.foldl (fun c s => s.execute desktop c) ⟨vars, []⟩) := by
  constructor
  · refine (foldl_step_steps specs _).trans ?_
    simp [defineWorkflow, WorkflowBuilder.new]
  · intro w
    exact executeSteps_trace desktop w.steps ⟨vars, []⟩

/-- C10: each fluent builder setter touches only its own metadata field,
leaving every other metadata field and the steps list unchanged;
`variable` preserves previously added definitions and overwrites only the
entry with the same name, while `tags` replaces the whole tags list. -/
theorem builder_setters_frame {δ α : Type} (b : WorkflowBuilder δ α)
    (d v : String) (ts : List String) (nm : String) (vd : VariableDefinition α) :
    ((b.description d).metadata.id = b.metadata.id ∧
     (b.description d).metadata.name = b.metadata.name ∧
     (b.description d).metadata.version = b.metadata.version ∧
     (b.description d).metadata.«variables» = b.metadata.«variables» ∧
     (b.description d).metadata.tags = b.metadata.tags ∧
     (b.description d).steps = b.steps ∧
     (b.description d).metadata.description = some d) ∧
    ((b.version v).metadata.id = b.metadata.id ∧
     (b.version v).metadata.name = b.metadata.name ∧
     (b.version v).metadata.description = b.metadata.description ∧
     (b.version v).metadata.«variables» = b.metadata.«variables» ∧
     (b.version v).metadata.tags = b.metadata.tags ∧
     (b.version v).steps = b.steps ∧
     (b.version v).metadata.version = some v) ∧
    ((b.tags ts).metadata.id = b.metadata.id ∧
     (b.tags ts).metadata.name = b.metadata.name ∧
     (b.tags ts).metadata.description = b.metadata.description ∧
     (b.tags ts).metadata.version = b.metadata.version ∧
     (b.tags ts).metadata.«variables» = b.metadata.«variables» ∧
     (b.tags ts).steps = b.steps ∧
     (b.tags ts).metadata.tags = some ts) ∧
    ((b.«variable» nm vd).metadata.id = b.metadata.id ∧
     (b.«variable» nm vd).metadata.name = b.metadata.name ∧
     (b.«variable» nm vd).metadata.description = b.metadata.description ∧
     (b.«variable» nm vd).metadata.version = b.metadata.version ∧
     (b.«variable» nm vd).metadata.tags = b.metadata.tags ∧
     (b.«variable» nm vd).steps = b.steps ∧
     getKey (((b.«variable» nm vd).metadata.«variables»).getD []) nm = some vd ∧
     (∀ k, k ≠ nm →
       getKey (((b.«variable» nm vd).metadata.«variables»).getD []) k =
         getKey (b.metadata.«variables».getD []) k)) := by
  refine ⟨⟨rfl, rfl, rfl, rfl, rfl, rfl, rfl⟩, ⟨rfl, rfl, rfl, rfl, rfl, rfl, rfl⟩,
    ⟨rfl, rfl, rfl, rfl, rfl, rfl, rfl⟩, ⟨rfl, rfl, rfl, rfl, rfl, rfl, ?_, ?_⟩⟩
  · simp [WorkflowBuilder.«variable», getKey_setKey_self]
  · intro k hk
    simp only [WorkflowBuilder.«variable», Option.getD_some]
    exact getKey_setKey_other _ nm k vd hk

/-- Witness for C1: an edit whose old text occurs twice, without
`replace_all`, fails. -/
theorem edit_failure_characterization_witness :
    ∃ e, applyEdit "x-x".data ⟨"x".data, "y".data, false⟩ = .error e :=
  (edit_failure_characterization (fun _ => none) [("a.yml", "x-x".data)] "a.yml"
    "x-x".data ⟨"x".data, "y".data, false⟩ (by decide) (by decide)).1.mpr (by decide)

/-- Witness for C2: the three occurrences of `notepad` are all replaced
and three replacements reported. -/
theorem edit_replace_all_spec_witness :
    ∃ parts : List (List Char),
      parts.length = 3 + 1 ∧
      joinSep "notepad".data parts = "notepad a notepad b notepad".data ∧
      (∀ p ∈ parts, ¬ List.IsInfix "notepad".data p) ∧
      applyEdit "notepad a notepad b notepad".data ⟨"notepad".data, "calc".data, true⟩ =
        .ok (joinSep "calc".data parts, 3) :=
  edit_replace_all_spec "notepad a notepad b notepad".data "notepad".data "calc".data 3
    (by decide) (by decide) (by decide)

/-- Witness for C3: the unique occurrence of `example` is replaced for
either flag value. -/
theorem edit_unique_occurrence_spec_witness :
    ∃ a b : List Char,
      "url: https://example.com".data = a ++ "example".data ++ b ∧
      (¬ List.IsInfix "example".data a) ∧ (¬ List.IsInfix "example".data b) ∧
      (∀ flag : Bool,
        applyEdit "url: https://example.com".data ⟨"example".data, "newsite".data, flag⟩ =
          .ok (a ++ "newsite".data ++ b, 1)) ∧
      (∀ (flag : Bool) (fs : Fs) (path : String),
        Fs.read fs path = some "url: https://example.com".data →
        (isWorkflowFile path = false ∨
          (validateParsed none).ok = true) →
        editWorkflow (fun _ => none) fs path ⟨"example".data, "newsite".data, flag⟩ =
          (Fs.write fs path (a ++ "newsite".data ++ b), .ok 1) ∧
        Fs.read (editWorkflow (fun _ => none) fs path
            ⟨"example".data, "newsite".data, flag⟩).1 path =
          some (a ++ "newsite".data ++ b)) :=
  edit_unique_occurrence_spec (fun _ => none) "url: https://example.com".data
    "example".data "newsite".data (by decide)

/-- Witness for C4: a failing validation blocks both the edit write and
the create. -/
theorem validation_failure_writes_nothing_witness :
    (editWorkflow (fun _ => none) [("w.yml", "a".data)] "w.yml" ⟨"a".data, "b".data, false⟩ =
      ([("w.yml", "a".data)],
        .error (.ValidationFailed (validateParsed none).violations))) ∧
    ((validateParsed none).ok = false →
      ∀ fs₂ : Fs, Fs.read fs₂ "w.yml" = none →
        createWorkflow (fun _ => none) fs₂ "w.yml" "c".data =
          (fs₂, .error (.ValidationFailed (validateParsed none).violations)) ∧
        Fs.read (createWorkflow (fun _ => none) fs₂ "w.yml" "c".data).1 "w.yml" = none) :=
  validation_failure_writes_nothing (fun _ => none) [("w.yml", "a".data)] "w.yml"
    ⟨"a".data, "b".data, false⟩ "a".data "b".data "c".data 1
    (by decide) (by decide) (by decide) (by decide)

/-- Witness for C6: a document whose `arguments` mapping lacks `steps`
is rejected with the missing path reported. -/
theorem validator_steps_requirements_witness :
    (validateParsed (some (.map [("tool_name", Yaml.scalar "execute_sequence"),
        ("arguments", Yaml.map [])]))).ok = false ∧
    "arguments.steps" ∈ (validateParsed (some (.map
        [("tool_name", Yaml.scalar "execute_sequence"),
         ("arguments", Yaml.map [])]))).violations :=
  validator_steps_requirements.2
    [("tool_name", Yaml.scalar "execute_sequence"), ("arguments", Yaml.map [])] []
    rfl rfl

/-- Witness for C7: a document with no `tool_name` key collects the
`tool_name` violation. -/
theorem validator_collects_all_checks_witness :
    "tool_name" ∈ (validateParsed (some (.map []))).violations :=
  validator_collects_all_checks.2.2.2.1 [] (fun h => Option.noConfusion h)

/-- Witness for C8: the concrete scenario's matches are pairwise ordered. -/
theorem search_order_deterministic_witness :
    (searchWorkflows scenarioFs "navigate_browser".data).Pairwise matchLt :=
  search_order_deterministic.1 scenarioFs "navigate_browser".data (by decide) (by decide)

/-- Witness for C10: adding variable `x` leaves the lookup of `y`
unchanged. -/
theorem builder_setters_frame_witness :
    getKey ((((defineWorkflow Unit Unit "wf" "WF").«variable» "x"
        ⟨.string, "X", none, none⟩).metadata.«variables»).getD []) "y" =
      getKey (((defineWorkflow Unit Unit "wf" "WF").metadata.«variables»).getD []) "y" :=
  ((builder_setters_frame (defineWorkflow Unit Unit "wf" "WF") "d" "v" [] "x"
      ⟨.string, "X", none, none⟩).2.2.2).2.2.2.2.2.2.2 "y" (by decide)

end Terminator
